import Mathlib

/-!
Shallow embedding of `src/clickhouse/columns/string.cpp` (clickhouse-cpp):
the variable-length string column `ColumnString` (arena blocks plus row
views) and the fixed-width column `ColumnFixedString` (one flat buffer,
zero-padded rows), together with the wire codec they use, and theorems
settling the specification claims about them.

Bytes are modelled as `List Nat`; streams as byte lists (an input stream is
the list of bytes still to be read, an output stream the list of bytes
written so far).  Fallible operations return `Option`/`Except`/`Bool`
results mirroring the source's exceptions and boolean load results.
-/

set_option maxRecDepth 4000

namespace clickhouse

/-- Byte-string contents (std::string / std::string_view payloads). -/
abbrev Bytes := List Nat

/-- Modelled from the spec: `DEFAULT_BLOCK_SIZE`, the default arena block
capacity.  It is declared in the header `string.h`, which is not among the
sources; the library's value 4096 is used.  Every theorem below treats it
symbolically, so no result depends on the numeric choice. -/
def DEFAULT_BLOCK_SIZE : Nat := 4096

/-- Modelled from the spec: `WireFormat::WriteUInt64`/`WriteVarint`
(`wire_format.h` is not among the sources), the varint encoding used for
`WriteString`'s length prefix: seven data bits per byte, the high bit set on
every byte except the last. -/
def writeVarint (n : Nat) : Bytes :=
  if h : n < 128 then [n] else (n % 128 + 128) :: writeVarint (n / 128)
termination_by n
decreasing_by exact Nat.div_lt_self (by omega) (by omega)

/-- Modelled from the spec: `WireFormat::ReadUInt64`, the varint decoder
(`read_u64_varint() -> (value, ok)` in the spec's wire-codec contract),
failing on a truncated stream. -/
def readVarint : Bytes → Option (Nat × Bytes)
  | [] => none
  | b :: rest =>
    if b < 128 then some (b, rest)
    else
      match readVarint rest with
      | none => none
      | some vr => some (b % 128 + 128 * vr.1, vr.2)

/-- Modelled from the spec: `WireFormat::ReadBytes`, "read exactly N bytes"
with failure signalling on truncation. -/
def readBytes (input : Bytes) (n : Nat) : Option (Bytes × Bytes) :=
  if n ≤ input.length then some (input.take n, input.drop n) else none

/-- Modelled from the spec: `WireFormat::WriteString`, a varint length
prefix followed by the raw bytes. -/
def writeString (s : Bytes) : Bytes := writeVarint s.length ++ s

/-- Modelled from the spec: `ComputeTotalSize` (declared in `utils.h`,
absent from the sources): the total byte size of the rows
`items[b, b+len)`. -/
def ComputeTotalSize (items : List Bytes) (b : Nat) (len : Nat) : Nat :=
  ((items.drop b).take len).foldl (fun acc s => acc + s.length) 0

/-- Writes `src` over `dest` starting at `pos`, keeping `dest`'s length
(`std::copy` into an existing buffer).  Bytes that would land past the end
of `dest` are dropped; in the source that overflow is undefined behaviour,
reachable only when the capacity precondition of the unchecked append is
violated. -/
def writeAt (dest : Bytes) (pos : Nat) (src : Bytes) : Bytes :=
  dest.take pos ++ src.take (dest.length - pos) ++ dest.drop (pos + src.length)

/-- Arena block (`ColumnString::Block`): fixed capacity, monotone used
length `size`, owned buffer `data_`. -/
structure Block where
  size : Nat
  capacity : Nat
  data_ : Bytes
deriving DecidableEq

/-- Block(starting_capacity): a zeroed buffer of the given capacity, used
length 0. -/
def Block.ofCapacity (c : Nat) : Block :=
  ⟨0, c, List.replicate c 0⟩

/-- Block(std::string&& payload): adopt an already-filled buffer, with
size = capacity = payload length. -/
def Block.ofPayload (payload : Bytes) : Block :=
  ⟨payload.length, payload.length, payload⟩

/-- Block::GetAvailable. -/
def Block.GetAvailable (b : Block) : Nat := b.capacity - b.size

/-- Block-level unchecked append (the spec's `append_unchecked`, source
`Block::AppendUnsafe`): copy `str` at the write position, advance `size`,
and return the view over the just-written range of the buffer.  The
combination `GetCurrentWritePos`-write-then-`ConsumeTailAsStringViewUnsafe`
used by `LoadBody` performs exactly the same state change and yields the
same view, so it is embedded by this same function. -/
def Block.AppendUnchecked (b : Block) (str : Bytes) : Block × Bytes :=
  let d := writeAt b.data_ b.size str
  (⟨b.size + str.length, b.capacity, d⟩, (d.drop b.size).take str.length)

/-- Block well-formedness: the buffer length equals the capacity (the
constructors establish this) and the used length never exceeds it. -/
def Block.WF (b : Block) : Prop :=
  b.data_.length = b.capacity ∧ b.size ≤ b.capacity

instance (b : Block) : Decidable b.WF := by
  unfold Block.WF; infer_instance

/-- Variable-length string column: ordered row views `items_` (each view's
denotation is the byte string it spans) and the ordered arena blocks
`blocks_`. -/
structure ColumnString where
  items_ : List Bytes
  blocks_ : List Block
deriving DecidableEq

/-- ColumnString(): the empty column. -/
def ColumnString.mkEmpty : ColumnString := ⟨[], []⟩

/-- ColumnString(std::string&& payload, std::vector&& items): zero-copy
adoption of an externally produced buffer as a single full block, with the
supplied row views. -/
def ColumnString.ofPayload (payload : Bytes) (items : List Bytes) : ColumnString :=
  ⟨items, [Block.ofPayload payload]⟩

/-- ColumnString::Size: the number of row views. -/
def ColumnString.Size (c : ColumnString) : Nat := c.items_.length

/-- ColumnString::At(n): `items_.at(n)`, failing out of range. -/
def ColumnString.At (c : ColumnString) (n : Nat) : Option Bytes :=
  c.items_.get? n

/-- The allocation test of `ColumnString::Append` and `LoadBody`: a new
block is needed when no block exists or the last block's remaining capacity
is smaller than `len`. -/
def ColumnString.needNewBlock (c : ColumnString) (len : Nat) : Bool :=
  match c.blocks_.getLast? with
  | none => true
  | some b => decide (b.GetAvailable < len)

/-- ColumnString::AppendUnsafe: append into `blocks_.back()` and push the
returned view.  Calling it with no block is out of bounds in the source;
that unreachable case is modelled as leaving the column unchanged. -/
def ColumnString.AppendUnchecked (c : ColumnString) (str : Bytes) : ColumnString :=
  match c.blocks_.getLast? with
  | none => c
  | some b =>
    let r := b.AppendUnchecked str
    ⟨c.items_ ++ [r.2], c.blocks_.dropLast ++ [r.1]⟩

/-- ColumnString::Append: allocate a fresh block of capacity
`max(DEFAULT_BLOCK_SIZE, str.length)` when `needNewBlock`, then append
unchecked into the last block. -/
def ColumnString.Append (c : ColumnString) (str : Bytes) : ColumnString :=
  let c1 : ColumnString :=
    if c.needNewBlock str.length then
      ⟨c.items_, c.blocks_ ++ [Block.ofCapacity (max DEFAULT_BLOCK_SIZE str.length)]⟩
    else c
  c1.AppendUnchecked str

/-- ColumnString::Clear: drop all views and all blocks. -/
def ColumnString.Clear (_c : ColumnString) : ColumnString := ⟨[], []⟩

/-- ColumnString::CloneEmpty. -/
def ColumnString.CloneEmpty (_c : ColumnString) : ColumnString := ⟨[], []⟩

/-- ColumnString::SaveBody: each row view written as
`WireFormat::WriteString` (varint length prefix then raw bytes), in row
order; the output stream is the produced byte list. -/
def ColumnString.SaveBody (c : ColumnString) : Bytes :=
  (c.items_.map writeString).flatten

/-- Loop of `ColumnString::LoadBody`: per row, read a varint length,
allocate a block when none exists or the length exceeds the last block's
remaining capacity, read that many bytes into its write position and push
the consumed view.  Returns (ok, column state, remaining input); `false`
reports the short read of either the varint or the byte read. -/
def ColumnString.loadLoop : Nat → ColumnString → Bytes → Bool × ColumnString × Bytes
  | 0, c, input => (true, c, input)
  | rows + 1, c, input =>
    match readVarint input with
    | none => (false, c, input)
    | some lr =>
      let c1 : ColumnString :=
        if c.needNewBlock lr.1 then
          ⟨c.items_, c.blocks_ ++ [Block.ofCapacity (max DEFAULT_BLOCK_SIZE lr.1)]⟩
        else c
      match readBytes lr.2 lr.1 with
      | none => (false, c1, lr.2)
      | some br => ColumnString.loadLoop rows (c1.AppendUnchecked br.1) br.2

/-- ColumnString::LoadBody: clears `items_` and `blocks_`, then decodes the
requested number of rows from the stream. -/
def ColumnString.LoadBody (_c : ColumnString) (input : Bytes) (rows : Nat) :
    Bool × ColumnString × Bytes :=
  ColumnString.loadLoop rows ⟨[], []⟩ input

/-- ColumnString::Slice: a fresh column given one block sized to the total
byte size of the selected rows, then the checked `Append` of each selected
row; empty (no rows, no blocks) when `begin` is at or past the end. -/
def ColumnString.Slice (c : ColumnString) (b len : Nat) : ColumnString :=
  if b < c.items_.length then
    let len1 := min len (c.items_.length - b)
    ((c.items_.drop b).take len1).foldl (fun r s => r.Append s)
      ⟨[], [Block.ofCapacity (ComputeTotalSize c.items_ b len1)]⟩
  else ⟨[], []⟩

/-- ColumnString::Swap against a same-kind column (a successful
`dynamic_cast`): the two columns exchange their items and blocks. -/
def ColumnString.SwapImpl (c o : ColumnString) : ColumnString × ColumnString :=
  (⟨o.items_, o.blocks_⟩, ⟨c.items_, c.blocks_⟩)

/-- ColumnString::Append(ColumnRef) when the argument is a same-kind column
distinct from the receiver: one upfront allocation check against the total
byte size of the incoming rows, then per-row unchecked appends.  The loop
bound `column->Size()` is constant here because the argument does not alias
`this`. -/
def ColumnString.AppendColumn (c o : ColumnString) : ColumnString :=
  let total := ComputeTotalSize o.items_ 0 o.items_.length
  let c1 : ColumnString :=
    if c.needNewBlock total then
      ⟨c.items_, c.blocks_ ++ [Block.ofCapacity (max DEFAULT_BLOCK_SIZE total)]⟩
    else c
  o.items_.foldl (fun r s => r.AppendUnchecked s) c1

/-- One C++ iteration of the self-aliased bulk append: the loop guard
`i < column->Size()` re-reads the receiver's size, which grows as rows are
appended.  `fuel` bounds the modelled iterations; `none` means the fuel ran
out with the guard still true. -/
def ColumnString.selfLoop : Nat → ColumnString → Nat → Option ColumnString
  | 0, c, i => if i < c.items_.length then none else some c
  | fuel + 1, c, i =>
    if h : i < c.items_.length then
      ColumnString.selfLoop fuel (c.AppendUnchecked (c.items_.get ⟨i, h⟩)) (i + 1)
    else some c

/-- ColumnString::Append(ColumnRef) when the argument aliases the receiver:
the upfront total-size allocation check, then the self-reading loop. -/
def ColumnString.AppendColumnSelf (fuel : Nat) (c : ColumnString) : Option ColumnString :=
  let total := ComputeTotalSize c.items_ 0 c.items_.length
  let c1 : ColumnString :=
    if c.needNewBlock total then
      ⟨c.items_, c.blocks_ ++ [Block.ofCapacity (max DEFAULT_BLOCK_SIZE total)]⟩
    else c
  ColumnString.selfLoop fuel c1 0

/-- Column well-formedness: every arena block is well formed. -/
def ColumnString.WF (c : ColumnString) : Prop :=
  ∀ b ∈ c.blocks_, b.WF

instance (c : ColumnString) : Decidable c.WF := by
  unfold ColumnString.WF; exact List.decidableBAll _ _

/-- Fixed-width string column: declared row width `string_size_` and one
flat buffer where row `i` occupies bytes `[i*string_size_, (i+1)*string_size_)`. -/
structure ColumnFixedString where
  string_size_ : Nat
  data_ : Bytes
deriving DecidableEq

/-- ColumnFixedString(n): width `n`, empty buffer. -/
def ColumnFixedString.mk' (n : Nat) : ColumnFixedString := ⟨n, []⟩

/-- ColumnFixedString::Size: `data_.size() / string_size_`. -/
def ColumnFixedString.Size (c : ColumnFixedString) : Nat :=
  c.data_.length / c.string_size_

/-- ColumnFixedString::Append: throws a ValidationError when `str` exceeds
`string_size_`; otherwise appends `str` and zero-pads up to the width.  The
`reserve` call in the source only adjusts the buffer's capacity and has no
observable effect on its contents. -/
def ColumnFixedString.Append (c : ColumnFixedString) (str : Bytes) :
    Except String ColumnFixedString :=
  if str.length > c.string_size_ then
    Except.error ("Expected string of length not greater than "
      ++ toString c.string_size_ ++ " bytes, received "
      ++ toString str.length ++ " bytes.")
  else
    Except.ok ⟨c.string_size_,
      c.data_ ++ str ++ List.replicate (c.string_size_ - str.length) 0⟩

/-- State of the column as observed after calling `Append` and catching any
exception: the throw precedes all mutation, so on error the column is
unchanged. -/
def ColumnFixedString.AppendState (c : ColumnFixedString) (str : Bytes) :
    ColumnFixedString :=
  match c.Append str with
  | Except.ok c1 => c1
  | Except.error _ => c

/-- ColumnFixedString::Clear. -/
def ColumnFixedString.Clear (c : ColumnFixedString) : ColumnFixedString :=
  ⟨c.string_size_, []⟩

/-- ColumnFixedString::At: the `data_.at(n * string_size_)` bounds check,
then a `string_size_`-wide view at that offset. -/
def ColumnFixedString.At (c : ColumnFixedString) (n : Nat) : Option Bytes :=
  if n * c.string_size_ < c.data_.length then
    some ((c.data_.drop (n * c.string_size_)).take c.string_size_)
  else none

/-- ColumnFixedString::Append(ColumnRef) against a same-kind column: raw
buffer concatenation only when the widths agree, otherwise a silent
no-op. -/
def ColumnFixedString.AppendColumn (c o : ColumnFixedString) : ColumnFixedString :=
  if c.string_size_ = o.string_size_ then ⟨c.string_size_, c.data_ ++ o.data_⟩ else c

/-- ColumnFixedString::LoadBody: resize the buffer to
`string_size_ * rows`, then one bulk read of that many bytes.  On a short
read the column keeps the resized buffer (its contents are then unspecified
in the source; the resize result is kept here). -/
def ColumnFixedString.LoadBody (c : ColumnFixedString) (input : Bytes) (rows : Nat) :
    Bool × ColumnFixedString × Bytes :=
  let n := c.string_size_ * rows
  match readBytes input n with
  | none => (false, ⟨c.string_size_, c.data_.take n ++ List.replicate (n - c.data_.length) 0⟩, input)
  | some br => (true, ⟨c.string_size_, br.1⟩, br.2)

/-- ColumnFixedString::SaveBody: the whole buffer in one write. -/
def ColumnFixedString.SaveBody (c : ColumnFixedString) : Bytes := c.data_

/-- ColumnFixedString::Slice: `data_.substr(begin*string_size_,
min(data_.size() - begin*string_size_, len*string_size_))` when `begin`
is in range, otherwise an empty column of the same width. -/
def ColumnFixedString.Slice (c : ColumnFixedString) (b len : Nat) : ColumnFixedString :=
  if b < c.Size then
    ⟨c.string_size_,
      (c.data_.drop (b * c.string_size_)).take
        (min (c.data_.length - b * c.string_size_) (len * c.string_size_))⟩
  else ⟨c.string_size_, []⟩

/-- ColumnFixedString::CloneEmpty. -/
def ColumnFixedString.CloneEmpty (c : ColumnFixedString) : ColumnFixedString :=
  ⟨c.string_size_, []⟩

/-- ColumnFixedString::Swap against a same-kind column (a successful
`dynamic_cast`): `std::swap` of `string_size_` and the buffer swap, i.e. a
full state exchange. -/
def ColumnFixedString.SwapImpl (c o : ColumnFixedString) :
    ColumnFixedString × ColumnFixedString :=
  (⟨o.string_size_, o.data_⟩, ⟨c.string_size_, c.data_⟩)

/-- The two concrete column kinds in scope, standing for the polymorphic
`Column&` interface. -/
inductive AnyColumn where
  | str : ColumnString → AnyColumn
  | fixed : ColumnFixedString → AnyColumn
deriving DecidableEq

/-- Column::Swap dispatch: each override starts with
`dynamic_cast<OwnKind&>(other)`; a reference cast to the wrong dynamic type
throws `std::bad_cast` before anything is exchanged, so a mismatched swap
yields an error and neither column's state is produced changed. -/
def AnyColumn.Swap : AnyColumn → AnyColumn → Except String (AnyColumn × AnyColumn)
  | AnyColumn.str c, AnyColumn.str o =>
    Except.ok (AnyColumn.str (c.SwapImpl o).1, AnyColumn.str (c.SwapImpl o).2)
  | AnyColumn.fixed c, AnyColumn.fixed o =>
    Except.ok (AnyColumn.fixed (c.SwapImpl o).1, AnyColumn.fixed (c.SwapImpl o).2)
  | _, _ => Except.error "std::bad_cast"

/-- Column bulk append through the `As<OwnKind>` check: a mismatched
concrete kind silently leaves the receiver unchanged (the distinct-column
case of `ColumnString::Append(ColumnRef)` is used for matching string
columns). -/
def AnyColumn.AppendColumnAny : AnyColumn → AnyColumn → AnyColumn
  | AnyColumn.str c, AnyColumn.str o => AnyColumn.str (c.AppendColumn o)
  | AnyColumn.fixed c, AnyColumn.fixed o => AnyColumn.fixed (c.AppendColumn o)
  | a, _ => a

/-- Total byte size of a list of rows. -/
def totalLen (S : List Bytes) : Nat := (S.map List.length).sum

theorem foldl_add_length (S : List Bytes) : ∀ a : Nat,
    S.foldl (fun acc s => acc + s.length) a = a + totalLen S := by
  induction S with
  | nil => intro a; simp [totalLen]
  | cons s S ih => intro a; simp [List.foldl_cons, ih, totalLen]; omega

theorem ComputeTotalSize_eq (items : List Bytes) (b len : Nat) :
    ComputeTotalSize items b len = totalLen ((items.drop b).take len) := by
  unfold ComputeTotalSize
  rw [foldl_add_length]
  omega

theorem writeAt_length (dest src : Bytes) (pos : Nat)
    (h : pos + src.length ≤ dest.length) :
    (writeAt dest pos src).length = dest.length := by
  unfold writeAt
  simp only [List.length_append, List.length_take, List.length_drop]
  omega

theorem writeAt_view (dest src : Bytes) (pos : Nat)
    (h : pos + src.length ≤ dest.length) :
    ((writeAt dest pos src).drop pos).take src.length = src := by
  have hs : src.take (dest.length - pos) = src := List.take_of_length_le (by omega)
  have h1 : (dest.take pos).length = pos := by
    simp only [List.length_take]; omega
  unfold writeAt
  rw [hs, List.append_assoc, List.drop_left' h1, List.take_left]

theorem Block.AppendUnchecked_spec (b : Block) (str : Bytes) (hwf : b.WF)
    (hcap : str.length ≤ b.GetAvailable) :
    (b.AppendUnchecked str).2 = str ∧
    (b.AppendUnchecked str).1.WF ∧
    (b.AppendUnchecked str).1.capacity = b.capacity ∧
    (b.AppendUnchecked str).1.size = b.size + str.length ∧
    (b.AppendUnchecked str).1.GetAvailable = b.GetAvailable - str.length ∧
    (b.AppendUnchecked str).1.data_ = writeAt b.data_ b.size str := by
  obtain ⟨hlen, hsz⟩ := hwf
  have hbound : b.size + str.length ≤ b.data_.length := by
    unfold Block.GetAvailable at hcap; omega
  refine ⟨writeAt_view _ _ _ hbound, ⟨?_, ?_⟩, rfl, rfl, ?_, rfl⟩
  · show (writeAt b.data_ b.size str).length = b.capacity
    rw [writeAt_length _ _ _ hbound, hlen]
  · show b.size + str.length ≤ b.capacity
    unfold Block.GetAvailable at hcap; omega
  · show b.capacity - (b.size + str.length) = b.GetAvailable - str.length
    unfold Block.GetAvailable; omega

theorem Block.ofCapacity_WF (n : Nat) : (Block.ofCapacity n).WF := by
  constructor <;> simp [Block.ofCapacity]

theorem Block.ofCapacity_GetAvailable (n : Nat) :
    (Block.ofCapacity n).GetAvailable = n := rfl

theorem needNewBlock_iff (c : ColumnString) (len : Nat) :
    c.needNewBlock len = true ↔
      (c.blocks_ = [] ∨ ∃ b, c.blocks_.getLast? = some b ∧ b.GetAvailable < len) := by
  unfold ColumnString.needNewBlock
  cases hlast : c.blocks_.getLast? with
  | none =>
    simp only [List.getLast?_eq_none_iff] at hlast
    simp [hlast]
  | some b =>
    have hne : c.blocks_ ≠ [] := by
      intro h
      rw [h] at hlast
      simp at hlast
    simp only [decide_eq_true_eq]
    constructor
    · intro h; exact Or.inr ⟨b, rfl, h⟩
    · rintro (h | ⟨b2, hb2, h⟩)
      · exact absurd h hne
      · injection hb2 with hbb
        rw [hbb]
        exact h

theorem ColumnString.AppendUnchecked_step (c : ColumnString) (str : Bytes) (b : Block)
    (hlast : c.blocks_.getLast? = some b) (hwf : c.WF)
    (hcap : str.length ≤ b.GetAvailable) :
    (c.AppendUnchecked str).items_ = c.items_ ++ [str] ∧
    (c.AppendUnchecked str).WF ∧
    (c.AppendUnchecked str).blocks_ = c.blocks_.dropLast ++ [(b.AppendUnchecked str).1] := by
  have hmem : b ∈ c.blocks_ := by
    rw [← List.dropLast_append_getLast? b hlast]
    simp
  have hbwf : b.WF := hwf b hmem
  obtain ⟨hview, hwf2, _, _, _, _⟩ := Block.AppendUnchecked_spec b str hbwf hcap
  have hblocks : (c.AppendUnchecked str).blocks_ =
      c.blocks_.dropLast ++ [(b.AppendUnchecked str).1] := by
    simp only [ColumnString.AppendUnchecked, hlast]
  have hitems : (c.AppendUnchecked str).items_ = c.items_ ++ [str] := by
    simp only [ColumnString.AppendUnchecked, hlast, hview]
  refine ⟨hitems, ?_, hblocks⟩
  intro x hx
  rw [hblocks] at hx
  rcases List.mem_append.mp hx with hx | hx
  · exact hwf x ((List.dropLast_sublist c.blocks_).subset hx)
  · rw [List.mem_singleton.mp hx]
    exact hwf2

theorem ColumnString.Append_spec (c : ColumnString) (str : Bytes) (hwf : c.WF) :
    (c.Append str).items_ = c.items_ ++ [str] ∧
    (c.Append str).WF ∧
    (c.needNewBlock str.length = true →
      (c.Append str).blocks_ =
        c.blocks_ ++ [((Block.ofCapacity (max DEFAULT_BLOCK_SIZE str.length)).AppendUnchecked str).1]) ∧
    (c.needNewBlock str.length = false →
      ∃ b, c.blocks_.getLast? = some b ∧ str.length ≤ b.GetAvailable ∧
        (c.Append str).blocks_ = c.blocks_.dropLast ++ [(b.AppendUnchecked str).1]) := by
  cases hneed : c.needNewBlock str.length with
  | true =>
    have heq : c.Append str =
        ColumnString.AppendUnchecked
          ⟨c.items_, c.blocks_ ++ [Block.ofCapacity (max DEFAULT_BLOCK_SIZE str.length)]⟩ str := by
      unfold ColumnString.Append
      rw [hneed]
      simp
    have hwf1 : ColumnString.WF
        ⟨c.items_, c.blocks_ ++ [Block.ofCapacity (max DEFAULT_BLOCK_SIZE str.length)]⟩ := by
      intro x hx
      rcases List.mem_append.mp hx with hx | hx
      · exact hwf x hx
      · rw [List.mem_singleton.mp hx]
        exact Block.ofCapacity_WF _
    have hlast1 : (c.blocks_ ++ [Block.ofCapacity (max DEFAULT_BLOCK_SIZE str.length)]).getLast?
        = some (Block.ofCapacity (max DEFAULT_BLOCK_SIZE str.length)) :=
      List.getLast?_concat _
    have hcap1 : str.length ≤ (Block.ofCapacity (max DEFAULT_BLOCK_SIZE str.length)).GetAvailable := by
      rw [Block.ofCapacity_GetAvailable]
      exact le_max_right _ _
    obtain ⟨hi, hw, hb⟩ :=
      ColumnString.AppendUnchecked_step _ str _ hlast1 hwf1 hcap1
    rw [heq]
    refine ⟨hi, hw, fun _ => ?_, fun h => Bool.noConfusion h⟩
    rw [hb]
    show (c.blocks_ ++ [Block.ofCapacity (max DEFAULT_BLOCK_SIZE str.length)]).dropLast ++ _ = _
    rw [List.dropLast_concat]
  | false =>
    have heq : c.Append str = c.AppendUnchecked str := by
      unfold ColumnString.Append
      rw [hneed]
      simp
    have hne : ¬ (c.blocks_.getLast? = none) := by
      intro h
      unfold ColumnString.needNewBlock at hneed
      rw [h] at hneed
      cases hneed
    cases hlast : c.blocks_.getLast? with
    | none => exact absurd hlast hne
    | some b =>
      have hcap : str.length ≤ b.GetAvailable := by
        unfold ColumnString.needNewBlock at hneed
        rw [hlast] at hneed
        simp only [decide_eq_false_iff_not, not_lt] at hneed
        exact hneed
      obtain ⟨hi, hw, hb⟩ := ColumnString.AppendUnchecked_step c str b hlast hwf hcap
      rw [heq]
      exact ⟨hi, hw, fun h => Bool.noConfusion h,
        fun _ => ⟨b, rfl, hcap, hb⟩⟩

theorem ColumnString.Append_items (c : ColumnString) (str : Bytes) (hwf : c.WF) :
    (c.Append str).items_ = c.items_ ++ [str] :=
  (ColumnString.Append_spec c str hwf).1

theorem ColumnString.Append_WF (c : ColumnString) (str : Bytes) (hwf : c.WF) :
    (c.Append str).WF :=
  (ColumnString.Append_spec c str hwf).2.1

theorem ColumnString.foldl_Append (S : List Bytes) :
    ∀ c : ColumnString, c.WF →
      (S.foldl ColumnString.Append c).items_ = c.items_ ++ S ∧
      (S.foldl ColumnString.Append c).WF := by
  induction S with
  | nil => intro c hwf; simpa using hwf
  | cons s S ih =>
    intro c hwf
    rw [List.foldl_cons]
    obtain ⟨hi, hw⟩ := ih (c.Append s) (ColumnString.Append_WF c s hwf)
    rw [hi, ColumnString.Append_items c s hwf]
    simp
    exact hw

theorem ColumnString.foldl_Append_oneBlock (S : List Bytes) :
    ∀ (c : ColumnString) (b : Block), c.WF → c.blocks_.getLast? = some b →
      totalLen S ≤ b.GetAvailable →
      (S.foldl ColumnString.Append c).blocks_.length = c.blocks_.length ∧
      ∃ b2, (S.foldl ColumnString.Append c).blocks_.getLast? = some b2 ∧
        b2.capacity = b.capacity := by
  induction S with
  | nil => intro c b hwf hlast hcap; exact ⟨rfl, b, hlast, rfl⟩
  | cons s S ih =>
    intro c b hwf hlast hcap
    have hne : c.blocks_ ≠ [] := by
      intro h; rw [h] at hlast; cases hlast
    have hstot : s.length + totalLen S ≤ b.GetAvailable := by
      simpa [totalLen] using hcap
    have hneed : c.needNewBlock s.length = false := by
      unfold ColumnString.needNewBlock
      rw [hlast]
      simp only [decide_eq_false_iff_not, not_lt]
      omega
    obtain ⟨_, hw, _, hfalse⟩ := ColumnString.Append_spec c s hwf
    obtain ⟨b1, hb1, hcap1, hblocks⟩ := hfalse hneed
    rw [hlast] at hb1
    injection hb1 with hb1
    subst hb1
    obtain ⟨hview, hbwf, hbcap, hbsize, hbavail, _⟩ :=
      Block.AppendUnchecked_spec b s (hwf b (by
        rw [← List.dropLast_append_getLast? b hlast]; simp)) (by omega)
    rw [List.foldl_cons]
    have hlast2 : (c.Append s).blocks_.getLast? = some (b.AppendUnchecked s).1 := by
      rw [hblocks]
      exact List.getLast?_concat _
    have hlen2 : (c.Append s).blocks_.length = c.blocks_.length := by
      rw [hblocks]
      simp only [List.length_append, List.length_dropLast, List.length_singleton]
      have : c.blocks_.length ≠ 0 := by
        intro h
        exact hne (List.length_eq_zero.mp h)
      omega
    obtain ⟨hl, b2, hb2, hb2cap⟩ := ih (c.Append s) (b.AppendUnchecked s).1 hw hlast2 (by omega)
    exact ⟨by rw [hl, hlen2], b2, hb2, by rw [hb2cap, hbcap]⟩

theorem ColumnString.foldl_AppendUnchecked (S : List Bytes) :
    ∀ (c : ColumnString) (b : Block), c.WF → c.blocks_.getLast? = some b →
      totalLen S ≤ b.GetAvailable →
      (S.foldl ColumnString.AppendUnchecked c).items_ = c.items_ ++ S ∧
      (S.foldl ColumnString.AppendUnchecked c).WF := by
  induction S with
  | nil => intro c b hwf hlast hcap; simpa using hwf
  | cons s S ih =>
    intro c b hwf hlast hcap
    have hstot : s.length + totalLen S ≤ b.GetAvailable := by
      simpa [totalLen] using hcap
    obtain ⟨hview, hbwf, hbcap, hbsize, hbavail, _⟩ :=
      Block.AppendUnchecked_spec b s (hwf b (by
        rw [← List.dropLast_append_getLast? b hlast]; simp)) (by omega)
    obtain ⟨hi, hw, hblocks⟩ :=
      ColumnString.AppendUnchecked_step c s b hlast hwf (by omega)
    have hlast2 : (c.AppendUnchecked s).blocks_.getLast? = some (b.AppendUnchecked s).1 := by
      rw [hblocks]
      exact List.getLast?_concat _
    rw [List.foldl_cons]
    obtain ⟨hi2, hw2⟩ := ih (c.AppendUnchecked s) (b.AppendUnchecked s).1 hw hlast2 (by omega)
    rw [hi2, hi]
    simp
    exact hw2

theorem readVarint_writeVarint (n : Nat) : ∀ rest : Bytes,
    readVarint (writeVarint n ++ rest) = some (n, rest) := by
  induction n using Nat.strong_induction_on with
  | _ n ih =>
    intro rest
    rw [writeVarint]
    split
    · next h =>
      simp [readVarint, h]
    · next h =>
      have h2 : n / 128 < n := Nat.div_lt_self (by omega) (by omega)
      have hge : ¬ (n % 128 + 128 < 128) := by omega
      have hcons : ((n % 128 + 128) :: writeVarint (n / 128)) ++ rest
          = (n % 128 + 128) :: (writeVarint (n / 128) ++ rest) := by simp
      rw [hcons]
      have hih : readVarint (writeVarint (n / 128) ++ rest) = some (n / 128, rest) :=
        ih _ h2 rest
      simp only [readVarint, if_neg hge, hih]
      have hm : (n % 128 + 128) % 128 + 128 * (n / 128) = n := by omega
      simp [hm]
      omega

theorem readBytes_append (s t : Bytes) :
    readBytes (s ++ t) s.length = some (s, t) := by
  unfold readBytes
  rw [if_pos (by simp)]
  rw [List.take_left, List.drop_left]

/-- Reference decoder for the byte stream `LoadBody` consumes: per row the
same varint read followed by the same exact-length byte read, in the same
order; it yields the decoded rows and the remaining stream, or `none` on
the first short read.  Used to state which streams `LoadBody` accepts. -/
def decodeRows : Nat → Bytes → Option (List Bytes × Bytes)
  | 0, input => some ([], input)
  | rows + 1, input =>
    match readVarint input with
    | none => none
    | some lr =>
      match readBytes lr.2 lr.1 with
      | none => none
      | some br =>
        match decodeRows rows br.2 with
        | none => none
        | some ir => some (br.1 :: ir.1, ir.2)

theorem readBytes_length (input : Bytes) (n : Nat) (br : Bytes × Bytes)
    (h : readBytes input n = some br) : br.1.length = n := by
  unfold readBytes at h
  split at h
  · next hle =>
    injection h with h
    rw [← h]
    simp
    omega
  · cases h

/-- One row of `loadLoop` after a successful varint and byte read equals
the checked `Append` of the bytes read: the allocation condition uses the
wire length, which equals the length of the bytes actually read. -/
theorem loadStep_eq_Append (c : ColumnString) (len : Nat) (bs : Bytes)
    (hlen : bs.length = len) :
    ColumnString.AppendUnchecked
      (if c.needNewBlock len then
        ⟨c.items_, c.blocks_ ++ [Block.ofCapacity (max DEFAULT_BLOCK_SIZE len)]⟩
      else c) bs = c.Append bs := by
  subst hlen
  rfl

theorem loadLoop_decode_some : ∀ (rows : Nat) (c : ColumnString) (input : Bytes)
    (its : List Bytes) (rest : Bytes), c.WF →
    decodeRows rows input = some (its, rest) →
    ∃ c2, ColumnString.loadLoop rows c input = (true, c2, rest) ∧
      c2.items_ = c.items_ ++ its ∧ c2.WF := by
  intro rows
  induction rows with
  | zero =>
    intro c input its rest hwf hdec
    unfold decodeRows at hdec
    injection hdec with hdec
    injection hdec with h1 h2
    exact ⟨c, by rw [ColumnString.loadLoop, h2], by rw [← h1]; simp, hwf⟩
  | succ rows ih =>
    intro c input its rest hwf hdec
    unfold decodeRows at hdec
    split at hdec
    · exact Option.noConfusion hdec
    · rename_i lr hv
      split at hdec
      · exact Option.noConfusion hdec
      · rename_i br hb
        split at hdec
        · exact Option.noConfusion hdec
        · rename_i ir hd
          injection hdec with hdec
          injection hdec with h1 h2
          have hblen : br.1.length = lr.1 := readBytes_length lr.2 lr.1 br hb
          obtain ⟨c2, hc2, hi2, hw2⟩ := ih (c.Append br.1) br.2 ir.1 ir.2
            (ColumnString.Append_WF c br.1 hwf) hd
          refine ⟨c2, ?_, ?_, hw2⟩
          · simp only [ColumnString.loadLoop, hv, hb]
            rw [loadStep_eq_Append c lr.1 br.1 hblen, hc2, h2]
          · rw [hi2, ColumnString.Append_items c br.1 hwf, ← h1]
            simp

theorem loadLoop_decode_none : ∀ (rows : Nat) (c : ColumnString) (input : Bytes), c.WF →
    decodeRows rows input = none →
    ∃ k its r2, decodeRows k input = some (its, r2) ∧ decodeRows (k + 1) input = none ∧
      k < rows ∧ its.length = k ∧
      (ColumnString.loadLoop rows c input).1 = false ∧
      (ColumnString.loadLoop rows c input).2.1.items_ = c.items_ ++ its := by
  intro rows
  induction rows with
  | zero =>
    intro c input hwf hdec
    unfold decodeRows at hdec
    cases hdec
  | succ rows ih =>
    intro c input hwf hdec
    unfold decodeRows at hdec
    split at hdec
    · rename_i hv
      refine ⟨0, [], input, rfl, by simp only [decodeRows, hv], by omega, rfl, ?_, ?_⟩
      · simp only [ColumnString.loadLoop, hv]
      · simp only [ColumnString.loadLoop, hv]
        simp
    · rename_i lr hv
      split at hdec
      · rename_i hb
        refine ⟨0, [], input, rfl, by simp only [decodeRows, hv, hb], by omega, rfl, ?_, ?_⟩
        · simp only [ColumnString.loadLoop, hv, hb]
        · simp only [ColumnString.loadLoop, hv, hb]
          split <;> simp
      · rename_i br hb
        split at hdec
        · rename_i hd
          have hblen : br.1.length = lr.1 := readBytes_length lr.2 lr.1 br hb
          obtain ⟨k, its, r2, hdk, hnext, hk, hkl, hflag, hitems⟩ :=
            ih (c.Append br.1) br.2 (ColumnString.Append_WF c br.1 hwf) hd
          refine ⟨k + 1, br.1 :: its, r2, ?_, ?_, by omega, by simp [hkl], ?_, ?_⟩
          · unfold decodeRows
            rw [hv]
            simp only
            rw [hb]
            simp only
            rw [hdk]
          · show decodeRows (k + 1 + 1) input = none
            unfold decodeRows
            rw [hv]
            simp only
            rw [hb]
            simp only
            rw [hnext]
          · simp only [ColumnString.loadLoop, hv, hb]
            rw [loadStep_eq_Append c lr.1 br.1 hblen]
            exact hflag
          · simp only [ColumnString.loadLoop, hv, hb]
            rw [loadStep_eq_Append c lr.1 br.1 hblen,
              hitems, ColumnString.Append_items c br.1 hwf]
            simp
        · exact Option.noConfusion hdec

theorem decodeRows_encode (S : List Bytes) : ∀ rest : Bytes,
    decodeRows S.length ((S.map writeString).flatten ++ rest) = some (S, rest) := by
  induction S with
  | nil => intro rest; simp [decodeRows]
  | cons s S ih =>
    intro rest
    have hinput : ((s :: S).map writeString).flatten ++ rest =
        writeVarint s.length ++ (s ++ ((S.map writeString).flatten ++ rest)) := by
      simp [writeString]
    rw [hinput]
    show decodeRows (S.length + 1) _ = _
    simp only [decodeRows,
      readVarint_writeVarint s.length (s ++ ((S.map writeString).flatten ++ rest)),
      readBytes_append s ((S.map writeString).flatten ++ rest), ih rest]

theorem ColumnString.AppendUnchecked_grows (c : ColumnString) (str : Bytes)
    (h : c.blocks_ ≠ []) :
    (c.AppendUnchecked str).items_.length = c.items_.length + 1 ∧
    (c.AppendUnchecked str).blocks_ ≠ [] := by
  cases hlast : c.blocks_.getLast? with
  | none => exact absurd (List.getLast?_eq_none_iff.mp hlast) h
  | some b =>
    unfold ColumnString.AppendUnchecked
    rw [hlast]
    constructor
    · simp
    · simp

theorem ColumnString.selfLoop_stuck (fuel : Nat) : ∀ (c : ColumnString) (i : Nat),
    c.blocks_ ≠ [] → i < c.items_.length →
    ColumnString.selfLoop fuel c i = none := by
  induction fuel with
  | zero =>
    intro c i hb hi
    unfold ColumnString.selfLoop
    rw [if_pos hi]
  | succ fuel ih =>
    intro c i hb hi
    unfold ColumnString.selfLoop
    rw [dif_pos hi]
    obtain ⟨hlen, hbne⟩ :=
      ColumnString.AppendUnchecked_grows c (c.items_.get ⟨i, hi⟩) hb
    exact ih _ (i + 1) hbne (by omega)

theorem ColumnString.selfLoop_exit (fuel : Nat) (c : ColumnString) (i : Nat)
    (h : ¬ i < c.items_.length) :
    ColumnString.selfLoop fuel c i = some c := by
  cases fuel with
  | zero => unfold ColumnString.selfLoop; rw [if_neg h]
  | succ fuel => unfold ColumnString.selfLoop; rw [dif_neg h]

theorem ColumnString.alloc_blocks_ne_nil (c : ColumnString) (len : Nat) :
    (if c.needNewBlock len then
       (⟨c.items_, c.blocks_ ++ [Block.ofCapacity (max DEFAULT_BLOCK_SIZE len)]⟩ : ColumnString)
     else c).blocks_ ≠ [] := by
  cases hneed : c.needNewBlock len with
  | true =>
    simp
  | false =>
    rw [if_neg (by exact Bool.false_ne_true)]
    intro h
    unfold ColumnString.needNewBlock at hneed
    rw [List.getLast?_eq_none_iff.mpr h] at hneed
    cases hneed

theorem fixed_fold_data (ss : Nat) (S : List Bytes) :
    ∀ c : ColumnFixedString, c.string_size_ = ss → (∀ s ∈ S, s.length ≤ ss) →
      (S.foldl ColumnFixedString.AppendState c).string_size_ = ss ∧
      (S.foldl ColumnFixedString.AppendState c).data_ =
        c.data_ ++ (S.map (fun s => s ++ List.replicate (ss - s.length) 0)).flatten := by
  induction S with
  | nil => intro c hss _; simpa using hss
  | cons s S ih =>
    intro c hss hall
    have hs : s.length ≤ ss := hall s (by simp)
    have hstate : c.AppendState s =
        ⟨c.string_size_, c.data_ ++ s ++ List.replicate (c.string_size_ - s.length) 0⟩ := by
      unfold ColumnFixedString.AppendState ColumnFixedString.Append
      rw [if_neg (by omega)]
    rw [List.foldl_cons]
    obtain ⟨h1, h2⟩ := ih (c.AppendState s) (by rw [hstate, hss]) (fun x hx => hall x (by simp [hx]))
    refine ⟨h1, ?_⟩
    rw [h2, hstate]
    simp [hss]

theorem flatten_chunk_length (k : Nat) (L : List Bytes) (hL : ∀ x ∈ L, x.length = k) :
    L.flatten.length = L.length * k := by
  induction L with
  | nil => simp
  | cons x L ih =>
    have hx : x.length = k := hL x (by simp)
    have := ih (fun y hy => hL y (by simp [hy]))
    simp only [List.flatten_cons, List.length_append, List.length_cons, this, hx]
    ring

theorem flatten_chunk_get (k : Nat) (L : List Bytes) (hL : ∀ x ∈ L, x.length = k) :
    ∀ i (h : i < L.length), (L.flatten.drop (i * k)).take k = L.get ⟨i, h⟩ := by
  induction L with
  | nil => intro i h; cases h
  | cons x L ih =>
    intro i h
    have hx : x.length = k := hL x (by simp)
    cases i with
    | zero =>
      simp only [Nat.zero_mul, List.drop_zero, List.flatten_cons, List.get]
      rw [← hx, List.take_left]
    | succ i =>
      have hple : i + 1 ≤ L.length := by simpa using h
      have hdrop : (x :: L).flatten.drop ((i + 1) * k) = L.flatten.drop (i * k) := by
        simp only [List.flatten_cons]
        rw [show (i + 1) * k = x.length + i * k by rw [hx]; ring]
        exact List.drop_append (i * k)
      rw [hdrop]
      exact ih (fun y hy => hL y (by simp [hy])) i (by omega)

/-- C1: for every variable-length string column, SaveBody writes each row
as a varint length prefix followed by that row's raw bytes, in row order,
and LoadBody of the resulting stream into a fresh column of the same kind
with the original row count succeeds and reproduces the original rows
byte-for-byte: the loaded column's Size equals the original Size and At i
equals the original At i for every i (any trailing stream bytes are left
unread). -/
theorem claim_C1_save_load_roundtrip (c : ColumnString) (rest : Bytes) :
    c.SaveBody = (c.items_.map writeString).flatten ∧
    (ColumnString.LoadBody ColumnString.mkEmpty (c.SaveBody ++ rest) c.Size).1 = true ∧
    (ColumnString.LoadBody ColumnString.mkEmpty (c.SaveBody ++ rest) c.Size).2.1.Size = c.Size ∧
    (∀ i, i < c.Size →
      (ColumnString.LoadBody ColumnString.mkEmpty (c.SaveBody ++ rest) c.Size).2.1.At i = c.At i) ∧
    (ColumnString.LoadBody ColumnString.mkEmpty (c.SaveBody ++ rest) c.Size).2.2 = rest := by
  have hdec : decodeRows c.Size (c.SaveBody ++ rest) = some (c.items_, rest) :=
    decodeRows_encode c.items_ rest
  have hwf0 : ColumnString.WF ⟨[], []⟩ := fun b hb => absurd hb (List.not_mem_nil b)
  obtain ⟨c2, hload, hitems, _⟩ :=
    loadLoop_decode_some c.Size ⟨[], []⟩ (c.SaveBody ++ rest) c.items_ rest hwf0 hdec
  have hL : ColumnString.LoadBody ColumnString.mkEmpty (c.SaveBody ++ rest) c.Size
      = (true, c2, rest) := hload
  have hit : c2.items_ = c.items_ := by rw [hitems]; simp
  refine ⟨rfl, by rw [hL], ?_, fun i _ => ?_, by rw [hL]⟩
  · rw [hL]
    show c2.items_.length = c.items_.length
    rw [hit]
  · rw [hL]
    show c2.items_.get? i = c.items_.get? i
    rw [hit]

/-- Witness for C1: a concrete two-row column round-trips through save and
load, with a trailing byte left unread. -/
theorem claim_C1_witness :
    (ColumnString.LoadBody ColumnString.mkEmpty
        ((ColumnString.ofPayload [97, 98, 98] [[97], [98, 98]]).SaveBody ++ [5])
        (ColumnString.ofPayload [97, 98, 98] [[97], [98, 98]]).Size).2.1.At 1
      = (ColumnString.ofPayload [97, 98, 98] [[97], [98, 98]]).At 1 :=
  (claim_C1_save_load_roundtrip
    (ColumnString.ofPayload [97, 98, 98] [[97], [98, 98]]) [5]).2.2.2.1 1 (by decide)

/-- C2 counterexample: on the fixed-width column the claim fails.  With
declared width 2, appending the one-byte string [97] and reading row 0 back
gives the zero-padded full-width slot [97, 0], not exactly [97]. -/
theorem claim_C2_counterexample :
    ¬ (((ColumnFixedString.mk' 2).AppendState [97]).At 0 = some [97]) := by
  decide

/-- C2 (amended): appending each element of S in order to a freshly created
column and reading back: the variable-length column returns exactly S[i]
for every i and its Size is the length of S; the fixed-width column (width
positive, every element at most the width) also has Size the length of S,
but At i returns S[i] zero-padded to exactly the declared width, which
equals S[i] only when S[i] is already full width. -/
theorem claim_C2_append_get (S : List Bytes) (ss : Nat) (hss : 0 < ss)
    (hall : ∀ s ∈ S, s.length ≤ ss) :
    (S.foldl ColumnString.Append ColumnString.mkEmpty).Size = S.length ∧
    (∀ i (h : i < S.length),
      (S.foldl ColumnString.Append ColumnString.mkEmpty).At i = some (S.get ⟨i, h⟩)) ∧
    (S.foldl ColumnFixedString.AppendState (ColumnFixedString.mk' ss)).Size = S.length ∧
    (∀ i (h : i < S.length),
      (S.foldl ColumnFixedString.AppendState (ColumnFixedString.mk' ss)).At i =
        some (S.get ⟨i, h⟩ ++ List.replicate (ss - (S.get ⟨i, h⟩).length) 0)) := by
  have hwf0 : ColumnString.WF ⟨[], []⟩ := fun b hb => absurd hb (List.not_mem_nil b)
  obtain ⟨hitems, _⟩ := ColumnString.foldl_Append S ColumnString.mkEmpty hwf0
  have hit : (S.foldl ColumnString.Append ColumnString.mkEmpty).items_ = S := by
    rw [hitems]
    simp [ColumnString.mkEmpty]
  obtain ⟨hssf, hdata⟩ := fixed_fold_data ss S (ColumnFixedString.mk' ss) rfl hall
  have hdata2 : (S.foldl ColumnFixedString.AppendState (ColumnFixedString.mk' ss)).data_ =
      (S.map (fun s => s ++ List.replicate (ss - s.length) 0)).flatten := by
    rw [hdata]
    simp [ColumnFixedString.mk']
  have hLlen : ∀ x ∈ S.map (fun s => s ++ List.replicate (ss - s.length) 0), x.length = ss := by
    intro x hx
    obtain ⟨s, hs, rfl⟩ := List.mem_map.mp hx
    have := hall s hs
    simp
    omega
  have hflat : (S.map (fun s => s ++ List.replicate (ss - s.length) 0)).flatten.length
      = S.length * ss := by
    rw [flatten_chunk_length ss _ hLlen]
    simp
  refine ⟨?_, fun i h => ?_, ?_, fun i h => ?_⟩
  · show (S.foldl ColumnString.Append ColumnString.mkEmpty).items_.length = S.length
    rw [hit]
  · show (S.foldl ColumnString.Append ColumnString.mkEmpty).items_.get? i = _
    rw [hit]
    exact List.get?_eq_get h
  · show (S.foldl ColumnFixedString.AppendState (ColumnFixedString.mk' ss)).data_.length
      / (S.foldl ColumnFixedString.AppendState (ColumnFixedString.mk' ss)).string_size_
      = S.length
    rw [hdata2, hssf, hflat]
    exact Nat.mul_div_cancel _ hss
  · unfold ColumnFixedString.At
    rw [hssf, hdata2]
    have hlt : i * ss < S.length * ss := by
      exact Nat.mul_lt_mul_of_lt_of_le h (le_refl ss) hss
    rw [if_pos (by rw [hflat]; exact hlt)]
    have hchunk := flatten_chunk_get ss _ hLlen i (by simpa using h)
    rw [hchunk]
    congr 1
    rw [List.get_map]

/-- Witness for C2 (amended) at S = [[97], [98, 99]], width 2: the variable
column returns [97] exactly, the fixed column returns the padded [97, 0]. -/
theorem claim_C2_witness :
    (([[97], [98, 99]] : List Bytes).foldl ColumnString.Append ColumnString.mkEmpty).At 0
      = some [97] ∧
    (([[97], [98, 99]] : List Bytes).foldl ColumnFixedString.AppendState
      (ColumnFixedString.mk' 2)).At 0 = some [97, 0] := by
  have h := claim_C2_append_get [[97], [98, 99]] 2 (by decide) (by decide)
  refine ⟨h.2.1 0 (by decide), ?_⟩
  have h2 := h.2.2.2 0 (by decide)
  simpa using h2

/-- C3: appending a value strictly longer than string_size to a fixed-width
column fails synchronously with a validation error, and the failed append
leaves the column's stored bytes and row count unchanged. -/
theorem claim_C3_fixed_reject (c : ColumnFixedString) (str : Bytes)
    (h : c.string_size_ < str.length) :
    c.Append str = Except.error ("Expected string of length not greater than "
      ++ toString c.string_size_ ++ " bytes, received "
      ++ toString str.length ++ " bytes.") ∧
    c.AppendState str = c ∧
    (c.AppendState str).Size = c.Size ∧
    (c.AppendState str).data_ = c.data_ := by
  have herr : c.Append str = Except.error ("Expected string of length not greater than "
      ++ toString c.string_size_ ++ " bytes, received "
      ++ toString str.length ++ " bytes.") := by
    unfold ColumnFixedString.Append
    rw [if_pos (by omega)]
  have hstate : c.AppendState str = c := by
    unfold ColumnFixedString.AppendState
    rw [herr]
  exact ⟨herr, hstate, by rw [hstate], by rw [hstate]⟩

/-- Witness for C3: a width-2 column rejects the three-byte string
[1, 2, 3] and is left unchanged. -/
theorem claim_C3_witness :
    (ColumnFixedString.mk' 2).AppendState [1, 2, 3] = ColumnFixedString.mk' 2 :=
  (claim_C3_fixed_reject (ColumnFixedString.mk' 2) [1, 2, 3] (by decide)).2.1

/-- C4 counterexample: Swap between two fixed-width columns is an operation
of the column that does change string_size: swapping a width-3 column with
a width-5 column leaves the first column with string_size 5, not its
construction value 3. -/
theorem claim_C4_counterexample :
    ¬ (((ColumnFixedString.mk' 3).SwapImpl (ColumnFixedString.mk' 5)).1.string_size_ = 3) := by
  decide

/-- C4 (amended): string_size_ is unchanged by append (also on a failed
append), clear, load, slice, clone_empty — and At and SaveBody are pure
reads that touch no state — but Swap exchanges the two columns' string_size
values together with their buffers, so it preserves a column's width only
when the two widths are equal. -/
theorem claim_C4_string_size (c o : ColumnFixedString) (v input : Bytes) (rows b l : Nat) :
    (c.AppendState v).string_size_ = c.string_size_ ∧
    c.Clear.string_size_ = c.string_size_ ∧
    ((c.LoadBody input rows).2.1).string_size_ = c.string_size_ ∧
    (c.Slice b l).string_size_ = c.string_size_ ∧
    c.CloneEmpty.string_size_ = c.string_size_ ∧
    (c.SwapImpl o).1.string_size_ = o.string_size_ ∧
    (c.SwapImpl o).2.string_size_ = c.string_size_ := by
  refine ⟨?_, rfl, ?_, ?_, rfl, rfl, rfl⟩
  · unfold ColumnFixedString.AppendState ColumnFixedString.Append
    by_cases hc : v.length > c.string_size_
    · rw [if_pos hc]
    · rw [if_neg hc]
  · cases hr : readBytes input (c.string_size_ * rows) with
    | none => simp [ColumnFixedString.LoadBody, hr]
    | some br => simp [ColumnFixedString.LoadBody, hr]
  · unfold ColumnFixedString.Slice
    split
    · rfl
    · rfl

/-- C5 counterexample: Swap between a variable-length column and a
fixed-width column is not a silent no-op: the reference dynamic_cast throws
std::bad_cast, so an exception escapes the call. -/
theorem claim_C5_counterexample :
    AnyColumn.Swap (AnyColumn.str ColumnString.mkEmpty)
      (AnyColumn.fixed (ColumnFixedString.mk' 1)) = Except.error "std::bad_cast" := rfl

/-- C5 (amended): Swap with a mismatched concrete column kind throws a
bad-cast error (thrown before anything is exchanged, so both columns keep
their state); the silent soft-fail no-op applies to the bulk append
(append_column), which leaves the receiver unchanged without any error. -/
theorem claim_C5_swap_mismatch (s : ColumnString) (f : ColumnFixedString) :
    AnyColumn.Swap (AnyColumn.str s) (AnyColumn.fixed f) = Except.error "std::bad_cast" ∧
    AnyColumn.Swap (AnyColumn.fixed f) (AnyColumn.str s) = Except.error "std::bad_cast" ∧
    AnyColumn.AppendColumnAny (AnyColumn.str s) (AnyColumn.fixed f) = AnyColumn.str s ∧
    AnyColumn.AppendColumnAny (AnyColumn.fixed f) (AnyColumn.str s) = AnyColumn.fixed f :=
  ⟨rfl, rfl, rfl, rfl⟩

/-- C6 (amended): LoadBody returns failure exactly when decoding the
requested rows hits a short stream read (of a varint length or of the
following bytes); the prior contents of the column are always discarded
(the load clears first, so the result does not depend on the previous
state), and on failure the column is left holding the proper prefix of rows
decoded before the short read — possibly nonempty, so not necessarily empty
or as before the call — marked invalid only by the false return value. -/
theorem claim_C6_load_failure (c : ColumnString) (input : Bytes) (rows : Nat) :
    ColumnString.LoadBody c input rows = ColumnString.LoadBody ColumnString.mkEmpty input rows ∧
    ((ColumnString.LoadBody c input rows).1 = true ↔ ∃ p, decodeRows rows input = some p) ∧
    ((ColumnString.LoadBody c input rows).1 = false →
      (ColumnString.LoadBody c input rows).2.1.Size < rows ∧
      ∃ r2, decodeRows ((ColumnString.LoadBody c input rows).2.1.Size) input
        = some ((ColumnString.LoadBody c input rows).2.1.items_, r2)) := by
  have hwf0 : ColumnString.WF ⟨[], []⟩ := fun b hb => absurd hb (List.not_mem_nil b)
  refine ⟨rfl, ?_, ?_⟩
  · constructor
    · intro htrue
      cases hd : decodeRows rows input with
      | some p => exact ⟨p, rfl⟩
      | none =>
        obtain ⟨k, its, r2, _, _, _, _, hflag, _⟩ :=
          loadLoop_decode_none rows ⟨[], []⟩ input hwf0 hd
        have hcontr : (ColumnString.LoadBody c input rows).1 = false := hflag
        rw [htrue] at hcontr
        cases hcontr
    · rintro ⟨p, hp⟩
      obtain ⟨c2, hload, _, _⟩ :=
        loadLoop_decode_some rows ⟨[], []⟩ input p.1 p.2 hwf0 (by rw [hp])
      show (ColumnString.loadLoop rows ⟨[], []⟩ input).1 = true
      rw [hload]
  · intro hfalse
    have hnone : decodeRows rows input = none := by
      cases hd : decodeRows rows input with
      | none => rfl
      | some p =>
        obtain ⟨c2, hload, _, _⟩ :=
          loadLoop_decode_some rows ⟨[], []⟩ input p.1 p.2 hwf0 (by rw [hd])
        have htrue : (ColumnString.LoadBody c input rows).1 = true := by
          show (ColumnString.loadLoop rows ⟨[], []⟩ input).1 = true
          rw [hload]
        rw [hfalse] at htrue
        cases htrue
    obtain ⟨k, its, r2, hdk, _, hk, hkl, hflag, hitems⟩ :=
      loadLoop_decode_none rows ⟨[], []⟩ input hwf0 hnone
    have hi : (ColumnString.LoadBody c input rows).2.1.items_ = its := by
      show (ColumnString.loadLoop rows ⟨[], []⟩ input).2.1.items_ = its
      rw [hitems]
      simp
    have hsz : (ColumnString.LoadBody c input rows).2.1.Size = k := by
      show (ColumnString.LoadBody c input rows).2.1.items_.length = k
      rw [hi, hkl]
    refine ⟨by rw [hsz]; exact hk, r2, ?_⟩
    rw [hsz, hi]
    exact hdk

/-- Concrete evaluation of the truncated load used for C6: loading 2 rows
from [1, 7] fails after loading the single row [7].  Proved through the
decode lemmas so that no default-sized arena block has to be evaluated. -/
theorem loadBody_trunc_eval :
    ((ColumnString.ofPayload [1] [[1]]).LoadBody [1, 7] 2).1 = false ∧
    ((ColumnString.ofPayload [1] [[1]]).LoadBody [1, 7] 2).2.1.items_ = [[7]] := by
  have hwf0 : ColumnString.WF ⟨[], []⟩ := fun b hb => absurd hb (List.not_mem_nil b)
  have hnone : decodeRows 2 [1, 7] = none := rfl
  obtain ⟨k, its, r2, hdk, hnext, hk, hkl, hflag, hitems⟩ :=
    loadLoop_decode_none 2 ⟨[], []⟩ [1, 7] hwf0 hnone
  have hk1 : k = 1 := by
    cases k with
    | zero =>
      have h17 : decodeRows (0 + 1) [1, 7] = some ([[7]], []) := rfl
      rw [h17] at hnext
      cases hnext
    | succ k0 =>
      cases k0 with
      | zero => rfl
      | succ k1 => omega
  subst hk1
  have h1 : decodeRows 1 [1, 7] = some ([[7]], []) := rfl
  rw [h1] at hdk
  injection hdk with hpair
  injection hpair with hits hr2
  constructor
  · exact hflag
  · have hgoal : (ColumnString.loadLoop 2 ⟨[], []⟩ [1, 7]).2.1.items_ = [[7]] := by
      rw [hitems, ← hits]
      simp
    exact hgoal

/-- C6 counterexample: loading 2 rows from the stream [1, 7] (one complete
row, the byte 7, then truncation) into a column already holding the row [1]
returns failure, but the failed column's visible row sequence is [[7]] — a
nonempty proper prefix of the requested rows that is neither empty nor the
contents from before the call. -/
theorem claim_C6_counterexample :
    ((ColumnString.ofPayload [1] [[1]]).LoadBody [1, 7] 2).1 = false ∧
    ((ColumnString.ofPayload [1] [[1]]).LoadBody [1, 7] 2).2.1.items_ = [[7]] ∧
    ((ColumnString.ofPayload [1] [[1]]).LoadBody [1, 7] 2).2.1.items_ ≠ [] ∧
    ((ColumnString.ofPayload [1] [[1]]).LoadBody [1, 7] 2).2.1.items_
      ≠ (ColumnString.ofPayload [1] [[1]]).items_ := by
  obtain ⟨hf, hi⟩ := loadBody_trunc_eval
  exact ⟨hf, hi, by rw [hi]; decide, by rw [hi]; decide⟩

/-- Witness for C6 (amended): on the failing load above, the theorem yields
that fewer than the requested 2 rows are retained. -/
theorem claim_C6_witness :
    ((ColumnString.ofPayload [1] [[1]]).LoadBody [1, 7] 2).2.1.Size < 2 :=
  ((claim_C6_load_failure (ColumnString.ofPayload [1] [[1]]) [1, 7] 2).2.2
    loadBody_trunc_eval.1).1

/-- C7: Append allocates a fresh block of capacity
max(DEFAULT_BLOCK_SIZE, str.length) and appends it to the block sequence
exactly when no block exists or the last block's remaining capacity is
smaller than the value's length; in either case the value's bytes are
written at the tail of the (possibly new) last block and exactly one row
view over those bytes is pushed, so Size grows by exactly one. -/
theorem claim_C7_append_allocation (c : ColumnString) (str : Bytes) (hwf : c.WF) :
    (c.Append str).items_ = c.items_ ++ [str] ∧
    (c.Append str).Size = c.Size + 1 ∧
    ((c.blocks_ = [] ∨ ∃ b, c.blocks_.getLast? = some b ∧ b.GetAvailable < str.length) →
      (c.Append str).blocks_.length = c.blocks_.length + 1 ∧
      ∃ nb, (c.Append str).blocks_.getLast? = some nb ∧
        nb.capacity = max DEFAULT_BLOCK_SIZE str.length) ∧
    (¬ (c.blocks_ = [] ∨ ∃ b, c.blocks_.getLast? = some b ∧ b.GetAvailable < str.length) →
      (c.Append str).blocks_.length = c.blocks_.length) ∧
    (∃ nb, (c.Append str).blocks_.getLast? = some nb ∧
      (nb.data_.drop (nb.size - str.length)).take str.length = str) := by
  obtain ⟨hi, hw, htrue, hfalse⟩ := ColumnString.Append_spec c str hwf
  refine ⟨hi, ?_, ?_, ?_, ?_⟩
  · show (c.Append str).items_.length = c.items_.length + 1
    rw [hi]
    simp
  · intro hcond
    have hneed : c.needNewBlock str.length = true := (needNewBlock_iff c str.length).mpr hcond
    have hb := htrue hneed
    constructor
    · rw [hb]
      simp
    · exact ⟨((Block.ofCapacity (max DEFAULT_BLOCK_SIZE str.length)).AppendUnchecked str).1,
        by rw [hb]; exact List.getLast?_concat _, rfl⟩
  · intro hcond
    have hneed : c.needNewBlock str.length = false := by
      cases h : c.needNewBlock str.length with
      | false => rfl
      | true => exact absurd ((needNewBlock_iff c str.length).mp h) hcond
    obtain ⟨b, hlast, hcap, hb⟩ := hfalse hneed
    rw [hb]
    have hne : c.blocks_ ≠ [] := by intro h0; rw [h0] at hlast; cases hlast
    simp only [List.length_append, List.length_dropLast, List.length_singleton]
    have hnz : c.blocks_.length ≠ 0 := fun h0 => hne (List.length_eq_zero.mp h0)
    omega
  · cases hneed : c.needNewBlock str.length with
    | true =>
      have hb := htrue hneed
      obtain ⟨hview, _, _, hsize, _, _⟩ := Block.AppendUnchecked_spec
        (Block.ofCapacity (max DEFAULT_BLOCK_SIZE str.length)) str (Block.ofCapacity_WF _)
        (by rw [Block.ofCapacity_GetAvailable]; exact le_max_right _ _)
      refine ⟨((Block.ofCapacity (max DEFAULT_BLOCK_SIZE str.length)).AppendUnchecked str).1,
        by rw [hb]; exact List.getLast?_concat _, ?_⟩
      have hz : ((Block.ofCapacity (max DEFAULT_BLOCK_SIZE str.length)).AppendUnchecked str).1.size
          - str.length = (Block.ofCapacity (max DEFAULT_BLOCK_SIZE str.length)).size := by
        rw [hsize]
        simp
      rw [hz]
      exact hview
    | false =>
      obtain ⟨b, hlast, hcap, hb⟩ := hfalse hneed
      obtain ⟨hview, _, _, hsize, _, _⟩ := Block.AppendUnchecked_spec b str
        (hwf b (by rw [← List.dropLast_append_getLast? b hlast]; simp)) hcap
      refine ⟨(b.AppendUnchecked str).1, by rw [hb]; exact List.getLast?_concat _, ?_⟩
      have hz : (b.AppendUnchecked str).1.size - str.length = b.size := by
        rw [hsize]
        omega
      rw [hz]
      exact hview

/-- Witness for C7: appending [7] to the empty column pushes exactly that
row. -/
theorem claim_C7_witness :
    (ColumnString.mkEmpty.Append [7]).items_ = [[7]] := by
  have h := claim_C7_append_allocation ColumnString.mkEmpty [7]
    (fun b hb => absurd hb (List.not_mem_nil b))
  simpa using h.1

/-- C8: Slice returns a new column whose rows are byte-for-byte copies of
the source rows [begin, begin+len) clamped to the available rows — so
min(len, Size - begin) rows — and an empty column when begin is at or past
the end; when begin is in range the result's bytes are copied into exactly
one block of the result's own, freshly sized to the total byte size of the
selected rows (the value model copies row values, so no aliasing of the
source's blocks is possible by construction). -/
theorem claim_C8_slice (c : ColumnString) (b len : Nat) :
    (b < c.Size →
      (c.Slice b len).items_ = (c.items_.drop b).take (min len (c.Size - b)) ∧
      (c.Slice b len).Size = min len (c.Size - b) ∧
      (c.Slice b len).blocks_.length = 1 ∧
      (∃ blk, (c.Slice b len).blocks_.getLast? = some blk ∧
        blk.capacity = ComputeTotalSize c.items_ b (min len (c.Size - b)))) ∧
    (c.Size ≤ b → c.Slice b len = ColumnString.mkEmpty) := by
  unfold ColumnString.Size
  constructor
  · intro hbi
    have heq : c.Slice b len =
        ((c.items_.drop b).take (min len (c.items_.length - b))).foldl
          (fun r s => r.Append s)
          ⟨[], [Block.ofCapacity
            (ComputeTotalSize c.items_ b (min len (c.items_.length - b)))]⟩ := by
      unfold ColumnString.Slice
      rw [if_pos hbi]
    have hwfi : ColumnString.WF ⟨[], [Block.ofCapacity
        (ComputeTotalSize c.items_ b (min len (c.items_.length - b)))]⟩ := by
      intro x hx
      rw [List.mem_singleton.mp hx]
      exact Block.ofCapacity_WF _
    have hlasti : (⟨[], [Block.ofCapacity
        (ComputeTotalSize c.items_ b (min len (c.items_.length - b)))]⟩ :
          ColumnString).blocks_.getLast? = some (Block.ofCapacity
        (ComputeTotalSize c.items_ b (min len (c.items_.length - b)))) := rfl
    have hcapi : totalLen ((c.items_.drop b).take (min len (c.items_.length - b)))
        ≤ (Block.ofCapacity
            (ComputeTotalSize c.items_ b (min len (c.items_.length - b)))).GetAvailable := by
      rw [Block.ofCapacity_GetAvailable, ComputeTotalSize_eq]
    obtain ⟨hitems, _⟩ := ColumnString.foldl_Append _ _ hwfi
    obtain ⟨hlen1, blk, hblk, hblkcap⟩ :=
      ColumnString.foldl_Append_oneBlock _ _ _ hwfi hlasti hcapi
    refine ⟨?_, ?_, ?_, blk, ?_, ?_⟩
    · rw [heq, hitems]
      simp
    · show (c.Slice b len).items_.length = min len (c.items_.length - b)
      rw [heq, hitems]
      simp only [List.nil_append, List.length_take, List.length_drop]
      omega
    · rw [heq, hlen1]
      rfl
    · rw [heq]
      exact hblk
    · rw [hblkcap]
      rfl
  · intro hge
    unfold ColumnString.Slice
    rw [if_neg (by omega)]
    rfl

/-- Witness for C8: slicing rows [1, 1+5) out of a two-row column yields
exactly the clamped single row [98, 98], in one block. -/
theorem claim_C8_witness :
    ((ColumnString.ofPayload [97, 98, 98] [[97], [98, 98]]).Slice 1 5).items_ = [[98, 98]] ∧
    ((ColumnString.ofPayload [97, 98, 98] [[97], [98, 98]]).Slice 1 5).blocks_.length = 1 := by
  have h := (claim_C8_slice (ColumnString.ofPayload [97, 98, 98] [[97], [98, 98]]) 1 5).1
    (by decide)
  refine ⟨?_, h.2.2.1⟩
  rw [h.1]
  rfl

/-- C9: appending a value v with v.length ≤ string_size to a fixed-width
column (positive width, buffer a whole number of rows), reading that row
back returns a byte string of length exactly string_size: v followed by
string_size - v.length zero bytes. -/
theorem claim_C9_padding (c : ColumnFixedString) (v : Bytes) (hpos : 0 < c.string_size_)
    (hmul : c.data_.length % c.string_size_ = 0) (hlen : v.length ≤ c.string_size_) :
    c.Append v = Except.ok (c.AppendState v) ∧
    (c.AppendState v).At c.Size = some (v ++ List.replicate (c.string_size_ - v.length) 0) ∧
    (v ++ List.replicate (c.string_size_ - v.length) 0).length = c.string_size_ := by
  have hok : c.Append v = Except.ok ⟨c.string_size_,
      c.data_ ++ v ++ List.replicate (c.string_size_ - v.length) 0⟩ := by
    unfold ColumnFixedString.Append
    rw [if_neg (by omega)]
  have hstate : c.AppendState v = ⟨c.string_size_,
      c.data_ ++ v ++ List.replicate (c.string_size_ - v.length) 0⟩ := by
    unfold ColumnFixedString.AppendState
    rw [hok]
  have hpadlen : (v ++ List.replicate (c.string_size_ - v.length) 0).length
      = c.string_size_ := by
    simp
    omega
  have hposmul : c.Size * c.string_size_ = c.data_.length := by
    unfold ColumnFixedString.Size
    exact Nat.div_mul_cancel (Nat.dvd_of_mod_eq_zero hmul)
  have hdlen : (c.data_ ++ v ++ List.replicate (c.string_size_ - v.length) 0).length
      = c.data_.length + c.string_size_ := by
    simp
    omega
  refine ⟨by rw [hok, hstate], ?_, hpadlen⟩
  rw [hstate]
  unfold ColumnFixedString.At
  rw [if_pos (by rw [hposmul] at *; rw [hdlen]; omega)]
  have hdrop : ((c.data_ ++ v ++ List.replicate (c.string_size_ - v.length) 0).drop
      (c.Size * c.string_size_)) = v ++ List.replicate (c.string_size_ - v.length) 0 := by
    rw [hposmul, List.append_assoc, List.drop_left]
  rw [hdrop]
  rw [List.take_of_length_le (le_of_eq hpadlen)]

/-- Witness for C9: width 4, append "hi" ([104, 105]); reading the row back
gives [104, 105, 0, 0]. -/
theorem claim_C9_witness :
    ((ColumnFixedString.mk' 4).AppendState [104, 105]).At 0 = some [104, 105, 0, 0] := by
  have h := claim_C9_padding (ColumnFixedString.mk' 4) [104, 105]
    (by decide) (by decide) (by decide)
  simpa using h.2.1

/-- The allocation prologue of the bulk appends leaves the row views
untouched. -/
theorem ColumnString.alloc_items (c : ColumnString) (len : Nat) :
    (if c.needNewBlock len then
       (⟨c.items_, c.blocks_ ++ [Block.ofCapacity (max DEFAULT_BLOCK_SIZE len)]⟩ : ColumnString)
     else c).items_ = c.items_ := by
  split
  · rfl
  · rfl

/-- C10 (amended): bulk append from a distinct same-kind column terminates
and appends exactly the rows the argument held, so Size grows by the
argument's Size; when the argument aliases the receiver, the call
terminates only for an empty column (appending nothing): for a nonempty
receiver the loop guard re-reads the growing size and no amount of fuel
reaches the exit, i.e. the source loop never terminates. -/
theorem claim_C10_bulk_append (c o : ColumnString) (hwf : c.WF) :
    (c.AppendColumn o).items_ = c.items_ ++ o.items_ ∧
    (c.AppendColumn o).Size = c.Size + o.Size ∧
    (c.items_ = [] → ∀ fuel, (ColumnString.AppendColumnSelf fuel c).isSome = true) ∧
    (c.items_ ≠ [] → ∀ fuel, ColumnString.AppendColumnSelf fuel c = none) := by
  have htotS : ComputeTotalSize o.items_ 0 o.items_.length = totalLen o.items_ := by
    rw [ComputeTotalSize_eq]
    simp
  have hdist : (c.AppendColumn o).items_ = c.items_ ++ o.items_ := by
    simp only [ColumnString.AppendColumn]
    cases hneed : c.needNewBlock (ComputeTotalSize o.items_ 0 o.items_.length) with
    | true =>
      rw [if_pos rfl]
      have hwf1 : ColumnString.WF ⟨c.items_, c.blocks_ ++ [Block.ofCapacity
          (max DEFAULT_BLOCK_SIZE (ComputeTotalSize o.items_ 0 o.items_.length))]⟩ := by
        intro x hx
        rcases List.mem_append.mp hx with hx | hx
        · exact hwf x hx
        · rw [List.mem_singleton.mp hx]
          exact Block.ofCapacity_WF _
      have hcap1 : totalLen o.items_ ≤ (Block.ofCapacity
          (max DEFAULT_BLOCK_SIZE (ComputeTotalSize o.items_ 0 o.items_.length))).GetAvailable := by
        rw [Block.ofCapacity_GetAvailable]
        exact le_trans (le_of_eq htotS.symm) (le_max_right _ _)
      obtain ⟨hi, _⟩ := ColumnString.foldl_AppendUnchecked o.items_ _ _ hwf1
        (List.getLast?_concat _) hcap1
      rw [hi]
    | false =>
      rw [if_neg Bool.false_ne_true]
      have hne : ¬ (c.blocks_.getLast? = none) := by
        intro h0
        unfold ColumnString.needNewBlock at hneed
        rw [h0] at hneed
        cases hneed
      cases hlast : c.blocks_.getLast? with
      | none => exact absurd hlast hne
      | some bb =>
        have hcap : totalLen o.items_ ≤ bb.GetAvailable := by
          unfold ColumnString.needNewBlock at hneed
          rw [hlast] at hneed
          simp only [decide_eq_false_iff_not, not_lt] at hneed
          omega
        obtain ⟨hi, _⟩ := ColumnString.foldl_AppendUnchecked o.items_ c bb hwf hlast hcap
        exact hi
  refine ⟨hdist, ?_, ?_, ?_⟩
  · show (c.AppendColumn o).items_.length = c.items_.length + o.items_.length
    rw [hdist]
    simp
  · intro hempty fuel
    simp only [ColumnString.AppendColumnSelf]
    rw [ColumnString.selfLoop_exit fuel _ 0
      (by rw [ColumnString.alloc_items, hempty]; simp)]
    rfl
  · intro hne fuel
    simp only [ColumnString.AppendColumnSelf]
    apply ColumnString.selfLoop_stuck
    · exact ColumnString.alloc_blocks_ne_nil c _
    · rw [ColumnString.alloc_items]
      exact List.length_pos.mpr hne

/-- C10 counterexample: the self-aliased bulk append of a nonempty one-row
column does not terminate: no iteration count makes the loop reach its exit
condition, because the loop bound re-reads the receiver's size, which grows
by one on every iteration. -/
theorem claim_C10_counterexample :
    ¬ ∃ (fuel : Nat) (r : ColumnString),
      ColumnString.AppendColumnSelf fuel (ColumnString.ofPayload [1] [[1]]) = some r := by
  rintro ⟨fuel, r, hr⟩
  have hstuck : ColumnString.AppendColumnSelf fuel (ColumnString.ofPayload [1] [[1]])
      = none := by
    simp only [ColumnString.AppendColumnSelf]
    apply ColumnString.selfLoop_stuck
    · exact ColumnString.alloc_blocks_ne_nil _ _
    · rw [ColumnString.alloc_items]
      decide
  rw [hstuck] at hr
  cases hr

/-- Witness for C10 (amended): bulk-appending a distinct two-row column to
a one-row column yields the three rows in order. -/
theorem claim_C10_witness :
    ((ColumnString.ofPayload [1] [[1]]).AppendColumn
      (ColumnString.ofPayload [2, 3] [[2], [3]])).items_ = [[1], [2], [3]] := by
  have h := claim_C10_bulk_append (ColumnString.ofPayload [1] [[1]])
    (ColumnString.ofPayload [2, 3] [[2], [3]]) (by decide)
  rw [h.1]
  rfl
